import Mathlib

/-!
Verification development for the SANE note-enhancement plugin
(`src/ai-service.ts`, `src/main.ts`).

The host-language strings are modelled as `List Char` (`Str` below); the
host-language numbers are modelled as idealized exact numbers (`ℚ` for the
cost ledger and the hash-bucket embedding accumulator, `ℝ` where square
roots occur, i.e. in `cosineSimilarity` and in the final L2 normalization).
Built-in functions of the host platform (`JSON.parse`, `String.prototype`
methods, regular-expression matching, `Map`) are modelled by explicit Lean
functions that follow the documented semantics of those built-ins on the
inputs produced by this program.
-/

abbrev Str := List Char

def toL (s : String) : Str := s.toList

/-- Whitespace class shared by the model of `String.prototype.trim` and of
the regular-expression class `\s` (space, tab, line feed, carriage return,
form feed, vertical tab). -/
def isJsWs (c : Char) : Bool :=
  c = ' ' ∨ c = '\t' ∨ c = '\n' ∨ c = '\r' ∨ c = '\x0c' ∨ c = '\x0b'

/-- Model of `String.prototype.trim`. -/
def jsTrim (s : Str) : Str :=
  ((s.dropWhile isJsWs).reverse.dropWhile isJsWs).reverse

/-- `beginsWith s p` models `s.startsWith(p)`. -/
def beginsWith : Str → Str → Bool
  | _, [] => true
  | [], _ :: _ => false
  | c :: s, d :: p => c = d && beginsWith s p

/-- `finishesWith s p` models `s.endsWith(p)`. -/
def finishesWith (s p : Str) : Bool :=
  beginsWith s.reverse p.reverse

theorem beginsWith_nil (s : Str) : beginsWith s [] = true := by
  cases s <;> rfl

theorem beginsWith_append (p s : Str) : beginsWith (p ++ s) p = true := by
  induction p with
  | nil => simpa using beginsWith_nil s
  | cons c cs ih => simp [beginsWith, ih]

theorem finishesWith_append (s p : Str) : finishesWith (s ++ p) p = true := by
  unfold finishesWith
  rw [List.reverse_append]
  exact beginsWith_append p.reverse s.reverse

theorem beginsWith_ne_nil {s p : Str} (hp : p ≠ []) (h : beginsWith s p = true) :
    s ≠ [] := by
  cases s with
  | nil => cases p with
    | nil => exact absurd rfl hp
    | cons d q => simp [beginsWith] at h
  | cons c cs => simp

/-- All indices at which the pattern `p` occurs in `s` (ascending). -/
def subIdxList (s p : Str) : List Nat :=
  (List.range (s.length + 1)).filter (fun i => beginsWith (s.drop i) p)

/-- Model of `String.prototype.indexOf` (as an `Option`). -/
def firstSubIdx (s p : Str) : Option Nat := (subIdxList s p).head?

/-- Model of `String.prototype.lastIndexOf` (as an `Option`). -/
def lastSubIdx (s p : Str) : Option Nat := (subIdxList s p).getLast?

/-- Model of `String.prototype.includes`. -/
def containsSub (s p : Str) : Bool := (subIdxList s p) ≠ []

/-- Model of `String.prototype.substring(a, b)` for `a ≤ b`. -/
def substrFromTo (s : Str) (a b : Nat) : Str := (s.drop a).take (b - a)

/-- Model of `str.replace(/['"]/g, '')`: removes every single- and
double-quote character. -/
def stripQM (s : Str) : Str :=
  s.filter (fun c => ¬ (c = '"' ∨ c = Char.ofNat 39))

/-- Model of `String.prototype.split(sep)` for a single-character
separator: splits at every occurrence, keeping empty pieces (the JS
behavior; `"".split(',')` is `[""]`). -/
def splitChar (sep : Char) (s : Str) : List Str :=
  s.splitOn sep

/-- ASCII lower-casing of a character, modelling `String.prototype.toLowerCase`
on the characters this program feeds it. -/
def lowerChar (c : Char) : Char :=
  if 'A' ≤ c ∧ c ≤ 'Z' then Char.ofNat (c.toNat + 32) else c

def toLowerStr (s : Str) : Str := s.map lowerChar

/-! ### Model of the host JSON data model and of `JSON.parse`

`parseAIResponse` in `src/ai-service.ts` feeds a cleaned string to the
built-in `JSON.parse`. The parser below follows the JSON grammar that
built-in accepts (values, strings with escapes, numbers, arrays, objects,
the four JSON whitespace characters). Numeric tokens are kept as their
lexemes: the program under verification never looks at a parsed number's
value, only at the shapes `Array.isArray` / `typeof === 'string'`. -/

inductive JVal where
  | jnull : JVal
  | jbool : Bool → JVal
  | jnum : Str → JVal
  | jstr : Str → JVal
  | jarr : List JVal → JVal
  | jobj : List (Str × JVal) → JVal

def obrace : Char := Char.ofNat 123
def cbrace : Char := Char.ofNat 125

/-- JSON token whitespace (space, tab, line feed, carriage return). -/
def isJsonWs (c : Char) : Bool :=
  c = ' ' ∨ c = '\t' ∨ c = '\n' ∨ c = '\r'

def skipWsJ (s : Str) : Str := s.dropWhile isJsonWs

def hexVal (c : Char) : Option Nat :=
  if '0' ≤ c ∧ c ≤ '9' then some (c.toNat - 48)
  else if 'a' ≤ c ∧ c ≤ 'f' then some (c.toNat - 87)
  else if 'A' ≤ c ∧ c ≤ 'F' then some (c.toNat - 55)
  else none

def escChar (c : Char) : Option Char :=
  if c = '"' then some '"'
  else if c = '\\' then some '\\'
  else if c = '/' then some '/'
  else if c = 'b' then some (Char.ofNat 8)
  else if c = 'f' then some (Char.ofNat 12)
  else if c = 'n' then some '\n'
  else if c = 'r' then some '\r'
  else if c = 't' then some '\t'
  else none

/-- JSON string body parser (positioned after the opening quote); returns
the decoded content and the remainder after the closing quote. Fueled; a
fuel of `length + 1` always suffices since every step consumes input. -/
def parseJStr : Nat → Str → Option (Str × Str)
  | 0, _ => none
  | _ + 1, [] => none
  | fuel + 1, c :: rest =>
    if c = '"' then some ([], rest)
    else if c = '\\' then
      match rest with
      | [] => none
      | e :: rest2 =>
        if e = 'u' then
          match rest2 with
          | h1 :: h2 :: h3 :: h4 :: rest3 =>
            match hexVal h1, hexVal h2, hexVal h3, hexVal h4 with
            | some a, some b, some c2, some d =>
              match parseJStr fuel rest3 with
              | some (t, r) => some (Char.ofNat (((a * 16 + b) * 16 + c2) * 16 + d) :: t, r)
              | none => none
            | _, _, _, _ => none
          | _ => none
        else
          match escChar e with
          | some ch =>
            match parseJStr fuel rest2 with
            | some (t, r) => some (ch :: t, r)
            | none => none
          | none => none
    else if c.toNat < 32 then none
    else
      match parseJStr fuel rest with
      | some (t, r) => some (c :: t, r)
      | none => none

/-- Optional exponent suffix of a JSON number lexeme. A dangling `e`
without digits is not consumed (the character then trips up the caller,
mirroring the rejection by `JSON.parse`). -/
def parseJNumExp (lexBase : Str) (s3 : Str) : Str × Str :=
  match s3 with
  | e :: r3 =>
    if e = 'e' ∨ e = 'E' then
      let (es, r4) : Str × Str :=
        match r3 with
        | '+' :: r5 => (['+'], r5)
        | '-' :: r5 => (['-'], r5)
        | _ => ([], r3)
      let ds := r4.takeWhile Char.isDigit
      if ds = [] then (lexBase, s3)
      else (lexBase ++ e :: (es ++ ds), r4.dropWhile Char.isDigit)
    else (lexBase, s3)
  | [] => (lexBase, s3)

/-- JSON number lexeme: `-? (0 | [1-9][0-9]*) (.[0-9]+)? ([eE][+-]?[0-9]+)?`. -/
def parseJNum (s : Str) : Option (Str × Str) :=
  let (sgn, s1) : Str × Str :=
    match s with
    | '-' :: r => (['-'], r)
    | _ => ([], s)
  match s1 with
  | [] => none
  | c :: r =>
    if ¬ c.isDigit then none
    else
      let (ip, s2) : Str × Str :=
        if c = '0' then (['0'], r)
        else (c :: r.takeWhile Char.isDigit, r.dropWhile Char.isDigit)
      match s2 with
      | '.' :: r2 =>
        let ds := r2.takeWhile Char.isDigit
        if ds = [] then none
        else some (parseJNumExp (sgn ++ ip ++ '.' :: ds) (r2.dropWhile Char.isDigit))
      | _ => some (parseJNumExp (sgn ++ ip) s2)

mutual

def jValF : Nat → Str → Option (JVal × Str)
  | 0, _ => none
  | fuel + 1, s =>
    let s0 := skipWsJ s
    match s0 with
    | [] => none
    | c :: rest =>
      if c = '"' then
        match parseJStr (rest.length + 1) rest with
        | some (str, r) => some (.jstr str, r)
        | none => none
      else if c = '[' then
        match skipWsJ rest with
        | ']' :: r2 => some (.jarr [], r2)
        | r1 =>
          match jElemsF fuel r1 with
          | some (es, r2) => some (.jarr es, r2)
          | none => none
      else if c = obrace then
        match skipWsJ rest with
        | d :: r2 =>
          if d = cbrace then some (.jobj [], r2)
          else
            match jFieldsF fuel (d :: r2) with
            | some (fs, r3) => some (.jobj fs, r3)
            | none => none
        | [] => none
      else if beginsWith s0 (toL "true") then some (.jbool true, s0.drop 4)
      else if beginsWith s0 (toL "false") then some (.jbool false, s0.drop 5)
      else if beginsWith s0 (toL "null") then some (.jnull, s0.drop 4)
      else
        match parseJNum s0 with
        | some (lex, r) => some (.jnum lex, r)
        | none => none

def jElemsF : Nat → Str → Option (List JVal × Str)
  | 0, _ => none
  | fuel + 1, s =>
    match jValF fuel s with
    | some (v, r) =>
      match skipWsJ r with
      | ',' :: r2 =>
        match jElemsF fuel r2 with
        | some (vs, r3) => some (v :: vs, r3)
        | none => none
      | ']' :: r2 => some ([v], r2)
      | _ => none
    | none => none

def jFieldsF : Nat → Str → Option (List (Str × JVal) × Str)
  | 0, _ => none
  | fuel + 1, s =>
    match skipWsJ s with
    | '"' :: rest =>
      match parseJStr (rest.length + 1) rest with
      | some (key, r) =>
        match skipWsJ r with
        | ':' :: r2 =>
          match jValF fuel r2 with
          | some (v, r3) =>
            match skipWsJ r3 with
            | ',' :: r5 =>
              match jFieldsF fuel r5 with
              | some (fs, r6) => some ((key, v) :: fs, r6)
              | none => none
            | d :: r5 => if d = cbrace then some ([(key, v)], r5) else none
            | [] => none
          | none => none
        | _ => none
      | none => none
    | _ => none

end

/-- Model of `JSON.parse`: `none` models a thrown `SyntaxError`. The fuel
`2 * length + 2` is always sufficient because every recursive descent step
consumes at least one input character per two fuel units. -/
def jsonParseModel (s : Str) : Option JVal :=
  match jValF (2 * s.length + 2) s with
  | some (v, r) => if skipWsJ r = [] then some v else none
  | none => none

/-- Property lookup on a parsed object; a duplicate JSON key is overwritten
by the later one in `JSON.parse`, hence the last occurrence wins. `none`
models the `undefined` result of a property access on a non-object (or a
missing property). Property access on `null` throws instead; callers model
that case separately. -/
def getField (v : JVal) (k : Str) : Option JVal :=
  match v with
  | .jobj fs => ((fs.filter (fun f => f.1 = k)).getLast?).map (fun f => f.2)
  | _ => none

/-! ### `Enhancement` and the response parser (`src/ai-service.ts`) -/

structure Enhancement where
  tags : List Str
  keywords : List Str
  links : List Str
  summary : Str
deriving DecidableEq

def emptyEnh : Enhancement := ⟨[], [], [], []⟩

def brOpen : Str := toL "[["
def brClose : Str := toL "]]"

/-- Link normalization shared by the strict and the fallback path of the
parser: a value already in bracketed `[[...]]` form is kept, anything else
has quotes removed, is trimmed and is wrapped into that form. -/
def formatLink (l : Str) : Str :=
  if beginsWith l brOpen ∧ finishesWith l brClose then l
  else brOpen ++ jsTrim (stripQM l) ++ brClose

/-- Fence stripping of `parseAIResponse`: trims the response, then cuts out
the text between a leading ```` ```json ```` (or generic ```` ``` ````)
marker and the last ```` ``` ```` marker when that span is non-degenerate. -/
def stripFences (resp : Str) : Str :=
  let t := jsTrim resp
  if containsSub t (toL "```json") then
    match firstSubIdx t (toL "```json"), lastSubIdx t (toL "```") with
    | some i, some e =>
      if e > i + 7 then jsTrim (substrFromTo t (i + 7) e) else t
    | _, _ => t
  else if containsSub t (toL "```") then
    match firstSubIdx t (toL "```"), lastSubIdx t (toL "```") with
    | some i, some e =>
      if e > i + 3 then jsTrim (substrFromTo t (i + 3) e) else t
    | _, _ => t
  else t

def lastIdxOfChar (s : Str) (c : Char) : Option Nat :=
  match s.reverse.findIdx? (· = c) with
  | some j => some (s.length - 1 - j)
  | none => none

/-- The `cleanResponse.match(/\{[\s\S]*\}/)` step: the greedy brace match
spans from the first opening brace to the last closing brace, provided the
latter comes after the former; otherwise the string is left unchanged. -/
def braceExtract (s : Str) : Str :=
  match s.findIdx? (· = obrace), lastIdxOfChar s cbrace with
  | some i, some j => if i < j then (s.drop i).take (j - i + 1) else s
  | _, _ => s

/-- Strips a literal pattern from the front of `s` (`none` if absent). -/
def dropPre : Str → Str → Option Str
  | s, [] => some s
  | [], _ :: _ => none
  | c :: s, d :: p => if c = d then dropPre s p else none

def containsC (s : Str) (c : Char) : Bool := s.any (· = c)

/-- One-position attempt for `/"<key>"\s*:\s*\[([\s\S]*?)\]/`: the literal
quoted key, optional whitespace, a colon, optional whitespace, an opening
bracket, then a lazy capture up to the first closing bracket. -/
def matchArrAt (key : Str) (u : Str) : Option Str :=
  match dropPre u ('"' :: key ++ ['"']) with
  | none => none
  | some r1 =>
    match r1.dropWhile isJsWs with
    | ':' :: r3 =>
      match r3.dropWhile isJsWs with
      | '[' :: r5 => if containsC r5 ']' then some (r5.takeWhile (· ≠ ']')) else none
      | _ => none
    | _ => none

/-- Leftmost-match scan of a regular expression model over every suffix. -/
def scanFor (f : Str → Option Str) : Str → Option Str
  | [] => f []
  | c :: rest =>
    match f (c :: rest) with
    | some r => some r
    | none => scanFor f rest

def findArrayBody (resp key : Str) : Option Str := scanFor (matchArrAt key) resp

/-- One-position attempt for `/"summary"\s*:\s*q([^q]*)q/` with quote
character `q` (double- or single-quoted summary value). -/
def matchSummQuoted (q : Char) (u : Str) : Option Str :=
  match dropPre u ('"' :: toL "summary" ++ ['"']) with
  | none => none
  | some r1 =>
    match r1.dropWhile isJsWs with
    | ':' :: r3 =>
      match r3.dropWhile isJsWs with
      | c :: r5 =>
        if c = q then
          if containsC r5 q then some (r5.takeWhile (· ≠ q)) else none
        else none
      | [] => none
    | _ => none

/-- Characters matched by `.` (no line terminators). -/
def dotOkChar (c : Char) : Bool :=
  ¬ (c = '\n' ∨ c = '\r' ∨ c = Char.ofNat 8232 ∨ c = Char.ofNat 8233)

/-- At a fixed position, `(.+?)(?:\n|$)` captures up to the next line feed
(or the end) provided the segment is non-empty and line-terminator-free. -/
def m3TryCap (u : Str) : Option Str :=
  let seg := u.takeWhile (· ≠ '\n')
  if seg ≠ [] ∧ seg.all dotOkChar then some seg else none

/-- Backtracking over the greedy `\s*`: the engine first consumes the whole
whitespace run, then gives characters back one at a time. -/
def m3Back (rest : Str) : Nat → Option Str
  | 0 => m3TryCap rest
  | j + 1 =>
    match m3TryCap (rest.drop (j + 1)) with
    | some cap => some cap
    | none => m3Back rest j

/-- One-position attempt for `/summary[^:]*:\s*(.+?)(?:\n|$)/i`. -/
def matchSummLoose (u : Str) : Option Str :=
  if toLowerStr (u.take 7) = toL "summary" then
    let r := u.drop 7
    if containsC r ':' then
      let rest := (r.dropWhile (· ≠ ':')).drop 1
      m3Back rest (rest.takeWhile isJsWs).length
    else none
  else none

/-- `summaryMatch`: the three-regex alternation of `extractWithFallback`,
first non-null result wins. -/
def summaryExtract (resp : Str) : Option Str :=
  match scanFor (matchSummQuoted '"') resp with
  | some cap => some cap
  | none =>
    match scanFor (matchSummQuoted (Char.ofNat 39)) resp with
    | some cap => some cap
    | none => scanFor matchSummLoose resp

/-- Per-element processing of a fallback array body: split on commas, trim
each piece, remove quote characters, drop empties. -/
def fallbackItems (body : Str) : List Str :=
  ((splitChar ',' body).map (fun t => stripQM (jsTrim t))).filter (fun t => ¬ t = [])

/-- `extractWithFallback` (src/ai-service.ts:361-428): regex-based
best-effort field extraction; every field not found stays at its empty
default. -/
def extractWithFallback (resp : Str) : Enhancement where
  tags :=
    match findArrayBody resp (toL "tags") with
    | some body => fallbackItems body
    | none => []
  keywords :=
    match findArrayBody resp (toL "keywords") with
    | some body => fallbackItems body
    | none => []
  links :=
    match findArrayBody resp (toL "links") with
    | some body => (fallbackItems body).map formatLink
    | none => []
  summary :=
    match summaryExtract resp with
    | some cap => jsTrim cap
    | none => []

/-- `tags.filter(t => typeof t === 'string' && t.length > 0)` on a parsed
JSON array. -/
def strElems (xs : List JVal) : List Str :=
  xs.filterMap (fun v =>
    match v with
    | JVal.jstr s => if s ≠ [] then some s else none
    | _ => none)

/-- `parseAIResponse` (src/ai-service.ts:294-359): clean the raw model
output (trim, strip code fences, extract the first-to-last brace span),
attempt the structural JSON parse and validate field shapes; any parse
failure — including the property-access `TypeError` on a parsed `null` —
is caught and routed to `extractWithFallback`. -/
def parseAIResponse (response : Str) : Enhancement :=
  match jsonParseModel (braceExtract (stripFences response)) with
  | none => extractWithFallback response
  | some JVal.jnull => extractWithFallback response
  | some parsed =>
    { tags :=
        match getField parsed (toL "tags") with
        | some (JVal.jarr xs) => strElems xs
        | _ => []
      keywords :=
        match getField parsed (toL "keywords") with
        | some (JVal.jarr xs) => strElems xs
        | _ => []
      links :=
        match getField parsed (toL "links") with
        | some (JVal.jarr xs) => (strElems xs).map formatLink
        | _ => []
      summary :=
        match getField parsed (toL "summary") with
        | some (JVal.jstr s) => jsTrim s
        | _ => [] }

/-! ### Structural validity of parsed enhancements (claim C1) -/

/-- A link is in bracketed `[[...]]` form and non-empty. -/
def LinkForm (l : Str) : Prop :=
  l ≠ [] ∧ beginsWith l brOpen = true ∧ finishesWith l brClose = true

/-- Structural validity of an `Enhancement`: tags and keywords are
non-empty strings, links are non-empty bracketed references, the summary
is a trimmed string. -/
def EnhValid (e : Enhancement) : Prop :=
  (∀ t ∈ e.tags, t ≠ []) ∧
  (∀ k ∈ e.keywords, k ≠ []) ∧
  (∀ l ∈ e.links, LinkForm l) ∧
  (∃ s0, e.summary = jsTrim s0)

theorem formatLink_form (l : Str) : LinkForm (formatLink l) := by
  unfold formatLink LinkForm
  split
  case isTrue h =>
    exact ⟨beginsWith_ne_nil (by decide) h.1, h.1, h.2⟩
  case isFalse h =>
    refine ⟨by simp [brOpen, toL], ?_, ?_⟩
    · rw [List.append_assoc]
      exact beginsWith_append brOpen _
    · exact finishesWith_append (brOpen ++ jsTrim (stripQM l)) brClose

theorem fallbackItems_ne_nil {body t : Str} (h : t ∈ fallbackItems body) : t ≠ [] := by
  unfold fallbackItems at h
  have := List.of_mem_filter h
  simpa using this

theorem strElems_ne_nil {xs : List JVal} {t : Str} (h : t ∈ strElems xs) : t ≠ [] := by
  unfold strElems at h
  rcases List.mem_filterMap.mp h with ⟨v, _, hv⟩
  cases v <;> simp_all
  rcases hv with ⟨hne, rfl⟩
  simp [hne]

theorem extractWithFallback_valid (resp : Str) : EnhValid (extractWithFallback resp) := by
  refine ⟨?_, ?_, ?_, ?_⟩
  · intro t ht
    simp only [extractWithFallback] at ht
    rcases h : findArrayBody resp (toL "tags") with _ | body <;> rw [h] at ht
    · simp at ht
    · exact fallbackItems_ne_nil ht
  · intro k hk
    simp only [extractWithFallback] at hk
    rcases h : findArrayBody resp (toL "keywords") with _ | body <;> rw [h] at hk
    · simp at hk
    · exact fallbackItems_ne_nil hk
  · intro l hl
    simp only [extractWithFallback] at hl
    rcases h : findArrayBody resp (toL "links") with _ | body <;> rw [h] at hl
    · simp at hl
    · rcases List.mem_map.mp hl with ⟨x, _, rfl⟩
      exact formatLink_form x
  · simp only [extractWithFallback]
    rcases h : summaryExtract resp with _ | cap
    · exact ⟨[], rfl⟩
    · exact ⟨cap, rfl⟩

theorem parse_success_valid (parsed : JVal) :
    EnhValid
      { tags :=
          match getField parsed (toL "tags") with
          | some (JVal.jarr xs) => strElems xs
          | _ => []
        keywords :=
          match getField parsed (toL "keywords") with
          | some (JVal.jarr xs) => strElems xs
          | _ => []
        links :=
          match getField parsed (toL "links") with
          | some (JVal.jarr xs) => (strElems xs).map formatLink
          | _ => []
        summary :=
          match getField parsed (toL "summary") with
          | some (JVal.jstr s) => jsTrim s
          | _ => [] } := by
  refine ⟨?_, ?_, ?_, ?_⟩
  · intro t ht
    simp only at ht
    revert ht
    split
    · exact fun ht => strElems_ne_nil ht
    · simp
  · intro k hk
    simp only at hk
    revert hk
    split
    · exact fun hk => strElems_ne_nil hk
    · simp
  · intro l hl
    simp only at hl
    revert hl
    split
    · intro hl
      rcases List.mem_map.mp hl with ⟨x, _, rfl⟩
      exact formatLink_form x
    · simp
  · simp only
    split
    · exact ⟨_, rfl⟩
    · exact ⟨[], rfl⟩

theorem parseAIResponse_valid (response : Str) : EnhValid (parseAIResponse response) := by
  unfold parseAIResponse
  split
  · exact extractWithFallback_valid response
  · exact extractWithFallback_valid response
  · exact parse_success_valid _

/-! ### `generateEnhancement` (src/ai-service.ts:32-98) -/

/-- The provider names the `switch` in `generateEnhancement` dispatches on;
any other runtime value falls into the `default` arm, which throws. -/
def supportedProvider (p : Str) : Bool :=
  p = toL "openai" ∨ p = toL "google" ∨ p = toL "grok" ∨
  p = toL "azure" ∨ p = toL "local"

/-- The final field-defaulting `{ tags: e.tags || [], ..., summary:
e.summary || '' }`: the fields of a `parseAIResponse` result are genuine
arrays (always truthy in the host language), and `s || ''` on a string is
the identity in both cases. -/
def orDefaults (e : Enhancement) : Enhancement :=
  { tags := e.tags
    keywords := e.keywords
    links := e.links
    summary := if e.summary.isEmpty then [] else e.summary }

theorem orDefaults_eq (e : Enhancement) : orDefaults e = e := by
  cases e with
  | mk tags keywords links summary =>
    unfold orDefaults
    cases summary <;> simp

/-- `generateEnhancement`: the provider `switch` selects a call (modelled
by its outcome `callResult`, `Except.error` being a thrown exception or a
non-200 response surfaced as a throw), an unsupported provider name throws
directly; the response is parsed; the surrounding `try`/`catch` turns any
thrown error into the all-empty enhancement. -/
def generateEnhancement (provider : Str) (callResult : Except Str Str) : Enhancement :=
  match (if supportedProvider provider then callResult
         else Except.error (toL "Unsupported AI provider: " ++ provider)) with
  | Except.error _ => emptyEnh
  | Except.ok resp => orDefaults (parseAIResponse resp)

theorem emptyEnh_valid : EnhValid emptyEnh := by
  refine ⟨?_, ?_, ?_, ⟨[], rfl⟩⟩ <;> simp [emptyEnh]

/-- C1: The response parser is total: for every input string (including
empty, malformed, non-JSON, or fenced input), `parseAIResponse` returns a
structurally valid `Enhancement` — tags, keywords and links are arrays of
non-empty strings, links each in bracketed `[[...]]` form, the summary a
trimmed string. Totality (never raising) holds by the parser being a total
function mirroring the catch-all `try`/`catch` structure of the source. -/
theorem parse_response_total_structural (response : Str) :
    EnhValid (parseAIResponse response) :=
  parseAIResponse_valid response

/-- C9: `generateEnhancement` never propagates an error: for every provider
outcome it returns a (structurally valid) `Enhancement`, and on an
unsupported provider name or a failed provider call (thrown exception /
non-200 surfaced as a throw) it returns the all-empty enhancement. -/
theorem generate_enhancement_error_absorption (p : Str) (r : Except Str Str) :
    EnhValid (generateEnhancement p r) ∧
    ((supportedProvider p = false ∨ ∃ m, r = Except.error m) →
      generateEnhancement p r = emptyEnh) := by
  constructor
  · unfold generateEnhancement
    split
    · exact emptyEnh_valid
    case h_2 resp heq =>
      rw [orDefaults_eq]
      exact parseAIResponse_valid resp
  · intro h
    unfold generateEnhancement
    rcases h with h | ⟨m, rfl⟩
    · rw [if_neg (by simp [h])]
    · rcases hs : supportedProvider p <;> simp [hs]

/-- Witness for C9 at a concrete unsupported provider and a concrete
failed call. -/
theorem generate_enhancement_error_absorption_witness :
    generateEnhancement (toL "cohere") (Except.ok (toL "ignored")) = emptyEnh ∧
    generateEnhancement (toL "openai") (Except.error (toL "Grok API error: 500")) = emptyEnh :=
  ⟨(generate_enhancement_error_absorption (toL "cohere") (Except.ok (toL "ignored"))).2
      (Or.inl (by decide)),
   (generate_enhancement_error_absorption (toL "openai")
      (Except.error (toL "Grok API error: 500"))).2 (Or.inr ⟨_, rfl⟩)⟩

/-- C8 counterexample: the raw output `{"a":1} "tags": ["a", "b"]` is not
parseable as JSON as a whole and contains the literal substring
`"tags": ["a", "b"]`, yet the parser's brace-extraction stage isolates
`{"a":1}`, the structural parse succeeds, the regex fallback never runs,
and the resulting tags are empty — refuting the claim as stated. -/
theorem fallback_substring_claim_counterexample :
    jsonParseModel (toL "\x7b\"a\":1\x7d \"tags\": [\"a\", \"b\"]") = none ∧
    containsSub (toL "\x7b\"a\":1\x7d \"tags\": [\"a\", \"b\"]")
      (toL "\"tags\": [\"a\", \"b\"]") = true ∧
    (parseAIResponse (toL "\x7b\"a\":1\x7d \"tags\": [\"a\", \"b\"]")).tags = [] :=
  ⟨rfl, rfl, rfl⟩

/-- C8 amended: for every raw output on which the structural parse of the
cleaned string fails (so the regex fallback runs) and whose first
`"tags": [...]` match captures the body `"a", "b"`, the parser yields
`tags = ["a","b"]`; any field whose pattern is not found stays at its
empty default. -/
theorem fallback_first_match_extraction (resp : Str)
    (h1 : jsonParseModel (braceExtract (stripFences resp)) = none)
    (h2 : findArrayBody resp (toL "tags") = some (toL "\"a\", \"b\"")) :
    (parseAIResponse resp).tags = [toL "a", toL "b"] ∧
    (findArrayBody resp (toL "keywords") = none → (parseAIResponse resp).keywords = []) ∧
    (findArrayBody resp (toL "links") = none → (parseAIResponse resp).links = []) ∧
    (summaryExtract resp = none → (parseAIResponse resp).summary = []) := by
  have hfb : parseAIResponse resp = extractWithFallback resp := by
    unfold parseAIResponse
    rw [h1]
  rw [hfb]
  refine ⟨?_, ?_, ?_, ?_⟩
  · simp only [extractWithFallback]
    rw [h2]
    decide
  · intro h
    simp only [extractWithFallback]
    rw [h]
  · intro h
    simp only [extractWithFallback]
    rw [h]
  · intro h
    simp only [extractWithFallback]
    rw [h]

/-- Witness for the amended C8 on a concrete corrupt response. -/
theorem fallback_first_match_extraction_witness :
    jsonParseModel (braceExtract (stripFences (toL "bla \"tags\": [\"a\", \"b\"] end"))) = none ∧
    findArrayBody (toL "bla \"tags\": [\"a\", \"b\"] end") (toL "tags") =
      some (toL "\"a\", \"b\"") ∧
    (parseAIResponse (toL "bla \"tags\": [\"a\", \"b\"] end")).tags = [toL "a", toL "b"] ∧
    (parseAIResponse (toL "bla \"tags\": [\"a\", \"b\"] end")).keywords = [] :=
  ⟨rfl, rfl,
   (fallback_first_match_extraction (toL "bla \"tags\": [\"a\", \"b\"] end") rfl rfl).1,
   (fallback_first_match_extraction (toL "bla \"tags\": [\"a\", \"b\"] end") rfl rfl).2.1 rfl⟩

/-! ### Cosine similarity (src/main.ts:291-306) -/

/-- The loop accumulator `dotProduct`. Lengths are equal whenever the loop
runs, so the index-wise loop is the zip of the two vectors. -/
def dotL (a b : List ℝ) : ℝ := (List.zipWith (fun x y => x * y) a b).sum

/-- The loop accumulators `normA` / `normB` (sum of squares). -/
def normSq (a : List ℝ) : ℝ := (a.map (fun x => x * x)).sum

/-- `cosineSimilarity`: 0 on mismatched lengths, 0 when either vector has
zero magnitude, otherwise `dot / (sqrt(normA) * sqrt(normB))`. -/
noncomputable def cosineSimilarity (a b : List ℝ) : ℝ :=
  if a.length ≠ b.length then 0
  else if normSq a = 0 ∨ normSq b = 0 then 0
  else dotL a b / (Real.sqrt (normSq a) * Real.sqrt (normSq b))

theorem dotL_comm (a b : List ℝ) : dotL a b = dotL b a := by
  unfold dotL
  rw [List.zipWith_comm_of_comm]
  intro x y
  exact mul_comm x y

theorem dotL_self (a : List ℝ) : dotL a a = normSq a := by
  unfold dotL normSq
  induction a with
  | nil => rfl
  | cons x xs ih => simp [ih]

theorem normSq_nonneg (a : List ℝ) : 0 ≤ normSq a := by
  unfold normSq
  induction a with
  | nil => simp
  | cons x xs ih => simpa using add_nonneg (mul_self_nonneg x) ih

/-- C5: `cosineSimilarity` is symmetric; equals 1 on any vector of non-zero
magnitude paired with itself; equals 0 on mismatched lengths and on any
zero-magnitude operand. -/
theorem cosine_similarity_spec :
    (∀ a b : List ℝ, cosineSimilarity a b = cosineSimilarity b a) ∧
    (∀ a : List ℝ, normSq a ≠ 0 → cosineSimilarity a a = 1) ∧
    (∀ a b : List ℝ, a.length ≠ b.length → cosineSimilarity a b = 0) ∧
    (∀ a b : List ℝ, normSq a = 0 ∨ normSq b = 0 → cosineSimilarity a b = 0) := by
  refine ⟨?_, ?_, ?_, ?_⟩
  · intro a b
    unfold cosineSimilarity
    split_ifs <;> first
      | rfl
      | tauto
      | rw [dotL_comm, mul_comm]
  · intro a ha
    unfold cosineSimilarity
    rw [if_neg (by simp), if_neg (by simpa using ha)]
    rw [dotL_self, Real.mul_self_sqrt (normSq_nonneg a)]
    exact div_self ha
  · intro a b hl
    unfold cosineSimilarity
    rw [if_pos hl]
  · intro a b hz
    unfold cosineSimilarity
    by_cases hl : a.length = b.length
    · rw [if_neg (by simp [hl]), if_pos hz]
    · rw [if_pos hl]

/-- Witness for C5 at the concrete non-zero vector `[1]`. -/
theorem cosine_similarity_spec_witness :
    normSq [(1 : ℝ)] ≠ 0 ∧ cosineSimilarity [(1 : ℝ)] [(1 : ℝ)] = 1 := by
  have h : normSq [(1 : ℝ)] ≠ 0 := by
    unfold normSq
    norm_num
  exact ⟨h, cosine_similarity_spec.2.1 [(1 : ℝ)] h⟩

/-! ### Embedding store and relevance ranking (src/main.ts:269-289) -/

/-- `NoteEmbedding` (src/types.ts). -/
structure NoteEmbedding where
  path : Str
  content : Str
  embedding : List ℝ
  lastUpdated : Int

/-- Model of the host `Map`: an insertion-ordered association list whose
keys are unique (the `Map` class invariant). -/
structure JsMap (β : Type) where
  entries : List (Str × β)

/-- `Map.prototype.get`. -/
def JsMap.lookup {β : Type} (m : JsMap β) (k : Str) : Option β :=
  (m.entries.find? (fun e => e.1 = k)).map (fun e => e.2)

/-- The comparator `(a, b) => b.similarity - a.similarity` orders ranked
neighbors by non-increasing similarity. -/
def simGE (p q : Str × ℝ) : Prop := q.2 ≤ p.2

noncomputable instance : DecidableRel simGE :=
  fun p q => inferInstanceAs (Decidable (q.2 ≤ p.2))

instance : IsTotal (Str × ℝ) simGE := ⟨fun p q => le_total q.2 p.2⟩

instance : IsTrans (Str × ℝ) simGE := ⟨fun _ _ _ h1 h2 => le_trans h2 h1⟩

/-- `findRelevantNotes`: looks up the query embedding (empty result when
absent), walks the store skipping the query path and paths whose file no
longer exists, scores every remaining entry with `cosineSimilarity`,
sorts by descending similarity and truncates to `count`. The host sort
with the comparator above produces a list sorted w.r.t. `simGE`; it is
modelled by a sort w.r.t. `simGE` (the claim's properties are invariant
under the order among ties, which the source leaves to the host sort). -/
noncomputable def findRelevantNotes (m : JsMap NoteEmbedding) (fileExists : Str → Bool)
    (excludePath : Str) (count : Nat) : List (Str × ℝ) :=
  match m.lookup excludePath with
  | none => []
  | some cur =>
    (List.insertionSort simGE
      ((m.entries.filter (fun e => ¬ e.1 = excludePath ∧ fileExists e.1)).map
        (fun e => (e.1, cosineSimilarity cur.embedding e.2.embedding)))).take count

/-- C2: for every store, file-existence predicate, query path and count,
`findRelevantNotes` never returns the query path, returns at most `count`
entries, and its entries are sorted in non-increasing order of
similarity. -/
theorem find_relevant_notes_spec (m : JsMap NoteEmbedding) (fileExists : Str → Bool)
    (excludePath : Str) (count : Nat) :
    (∀ r ∈ findRelevantNotes m fileExists excludePath count, r.1 ≠ excludePath) ∧
    (findRelevantNotes m fileExists excludePath count).length ≤ count ∧
    List.Sorted simGE (findRelevantNotes m fileExists excludePath count) := by
  unfold findRelevantNotes
  split
  · exact ⟨by simp, by simp, List.sorted_nil⟩
  case h_2 cur heq =>
    refine ⟨?_, ?_, ?_⟩
    · intro r hr
      have h1 : r ∈ List.insertionSort simGE _ := List.take_subset _ _ hr
      have h2 := (List.perm_insertionSort simGE _).mem_iff.mp h1
      rcases List.mem_map.mp h2 with ⟨e, he, rfl⟩
      have := List.of_mem_filter he
      simp only [decide_eq_true_eq, Bool.and_eq_true, decide_not] at this
      simpa using this.1
    · exact List.length_take_le _ _
    · exact (List.sorted_insertionSort simGE _).sublist (List.take_sublist _ _)

/-- Witness for C2 on a concrete two-entry store: the single ranked
neighbor is not the query path. -/
theorem find_relevant_notes_spec_witness :
    (toL "x", cosineSimilarity [] []).1 ≠ toL "q" ∧
    (findRelevantNotes
      ⟨[(toL "q", ⟨toL "q", [], [], 0⟩), (toL "x", ⟨toL "x", [], [], 0⟩)]⟩
      (fun _ => true) (toL "q") 3).length ≤ 3 := by
  have hres : findRelevantNotes
      ⟨[(toL "q", ⟨toL "q", [], [], 0⟩), (toL "x", ⟨toL "x", [], [], 0⟩)]⟩
      (fun _ => true) (toL "q") 3 = [(toL "x", cosineSimilarity [] [])] := by
    simp [findRelevantNotes, JsMap.lookup, List.find?, List.filter, toL]
  refine ⟨(find_relevant_notes_spec
      ⟨[(toL "q", ⟨toL "q", [], [], 0⟩), (toL "x", ⟨toL "x", [], [], 0⟩)]⟩
      (fun _ => true) (toL "q") 3).1 _ ?_,
    (find_relevant_notes_spec
      ⟨[(toL "q", ⟨toL "q", [], [], 0⟩), (toL "x", ⟨toL "x", [], [], 0⟩)]⟩
      (fun _ => true) (toL "q") 3).2.1⟩
  rw [hres]
  exact List.mem_singleton_self _

/-! ### Embedding persistence (src/main.ts:619-638)

`saveEmbeddings` writes `JSON.stringify(Array.from(map.entries()))` to
storage; `loadEmbeddings` rebuilds the map with `new Map(JSON.parse(s))`.
The built-in `stringify`/`parse` pair is exact on this data (plain objects,
strings, finite numbers — double-to-string conversion round-trips exactly
per the host language specification), so it is modelled as the identity on
the entries list; the remaining program logic is the entries extraction
and the `Map` reconstruction, which replays `Map.prototype.set`. -/

/-- `Map.prototype.set`: overwrites an existing key in place, otherwise
appends in insertion order. -/
def JsMap.set {β : Type} (m : JsMap β) (k : Str) (v : β) : JsMap β :=
  if m.entries.any (fun e => e.1 = k) then
    ⟨m.entries.map (fun e => if e.1 = k then (k, v) else e)⟩
  else ⟨m.entries ++ [(k, v)]⟩

/-- `new Map(pairs)`: sets every pair in order. -/
def jsMapOfPairs {β : Type} (l : List (Str × β)) : JsMap β :=
  l.foldl (fun m e => m.set e.1 e.2) ⟨[]⟩

/-- `saveEmbeddings`: `Array.from(this.noteEmbeddings.entries())`. -/
def saveEmbeddings (m : JsMap NoteEmbedding) : List (Str × NoteEmbedding) := m.entries

/-- `loadEmbeddings`: `this.noteEmbeddings = new Map(data)`. -/
def loadEmbeddings (data : List (Str × NoteEmbedding)) : JsMap NoteEmbedding :=
  jsMapOfPairs data

theorem foldl_set_of_disjoint {β : Type} :
    ∀ (l : List (Str × β)) (acc : JsMap β),
      (l.map Prod.fst).Nodup →
      (∀ e ∈ l, ∀ x ∈ acc.entries, ¬ x.1 = e.1) →
      l.foldl (fun m e => m.set e.1 e.2) acc = ⟨acc.entries ++ l⟩
  | [], acc, _, _ => by cases acc; simp
  | (k, v) :: rest, acc, hnd, hdisj => by
    have hkacc : ∀ x ∈ acc.entries, ¬ x.1 = k := by
      intro x hx
      exact hdisj (k, v) (List.mem_cons_self _ _) x hx
    have hset : acc.set k v = ⟨acc.entries ++ [(k, v)]⟩ := by
      unfold JsMap.set
      have hcond : acc.entries.any (fun e => e.1 = k) = false := by
        simp only [List.any_eq_false, decide_eq_true_eq]
        exact hkacc
      rw [hcond]
      simp
    have hnd2 : (k :: rest.map Prod.fst).Nodup := by
      rw [List.map_cons] at hnd
      exact hnd
    have hndrest : (rest.map Prod.fst).Nodup := (List.nodup_cons.mp hnd2).2
    have hknotin : k ∉ rest.map Prod.fst := (List.nodup_cons.mp hnd2).1
    have hdisj2 : ∀ e ∈ rest, ∀ x ∈ acc.entries ++ [(k, v)], ¬ x.1 = e.1 := by
      intro e he x hx
      rcases List.mem_append.mp hx with hx | hx
      · exact hdisj e (List.mem_cons_of_mem _ he) x hx
      · have hxk : x = (k, v) := by simpa using hx
        subst hxk
        intro hke
        apply hknotin
        rw [show k = e.1 from hke]
        exact List.mem_map_of_mem Prod.fst he
    calc ((k, v) :: rest).foldl (fun m e => m.set e.1 e.2) acc
        = rest.foldl (fun m e => m.set e.1 e.2) ⟨acc.entries ++ [(k, v)]⟩ := by
          rw [List.foldl_cons, hset]
      _ = ⟨(acc.entries ++ [(k, v)]) ++ rest⟩ :=
          foldl_set_of_disjoint rest ⟨acc.entries ++ [(k, v)]⟩ hndrest hdisj2
      _ = ⟨acc.entries ++ (k, v) :: rest⟩ := by simp

/-- C7: serializing the embedding store and loading the blob back
reproduces the same map — the same paths bound to the same embeddings
(float-exact in the idealized numeric model, matching the exact
double round-trip of the host serializer). The hypothesis is the `Map`
class invariant: keys are unique. -/
theorem save_load_roundtrip (m : JsMap NoteEmbedding)
    (h : (m.entries.map Prod.fst).Nodup) :
    loadEmbeddings (saveEmbeddings m) = m := by
  unfold loadEmbeddings saveEmbeddings jsMapOfPairs
  rw [foldl_set_of_disjoint m.entries ⟨[]⟩ h (by simp)]
  cases m
  simp

noncomputable def wNoteA : NoteEmbedding := ⟨toL "a", toL "hi", [(1 : ℝ), 0], 5⟩

noncomputable def wNoteB : NoteEmbedding := ⟨toL "b", [], [(1 : ℝ) / 2], 6⟩

noncomputable def wStore : JsMap NoteEmbedding := ⟨[(toL "a", wNoteA), (toL "b", wNoteB)]⟩

/-- Witness for C7 on a concrete two-note store with real-valued vectors. -/
theorem save_load_roundtrip_witness :
    ((wStore.entries.map Prod.fst).Nodup) ∧
    loadEmbeddings (saveEmbeddings wStore) = wStore := by
  have hnd : (wStore.entries.map Prod.fst).Nodup := by
    simp [wStore, toL]
  exact ⟨hnd, save_load_roundtrip wStore hnd⟩

/-! ### Cost ledger (src/main.ts:442-469) -/

structure CostEntry where
  timestamp : Int
  operation : Str
  cost : ℚ
  provider : Str
deriving DecidableEq

/-- Sum of the costs of the entries whose `new Date(ts).toDateString()`
equals today's; the conversion of a timestamp to a local calendar-day
string is an external `Date` behavior, passed in as `dayString`. The
`reduce((sum, e) => sum + e.cost, 0)` is the list sum. -/
def todaySum (dayString : Int → Str) (now : Int) (entries : List CostEntry) : ℚ :=
  ((entries.filter (fun e => dayString e.timestamp = dayString now)).map
    (fun e => e.cost)).sum

/-- `canAffordProcessing`: `true` unconditionally when tracking is off,
otherwise today's recorded spend must be strictly below the budget. -/
def canAffordProcessing (costTracking : Bool) (dailyBudget : ℚ)
    (dayString : Int → Str) (now : Int) (entries : List CostEntry) : Bool :=
  if ¬ costTracking then true
  else decide (todaySum dayString now entries < dailyBudget)

/-- C4: the budget gate. With tracking enabled, a same-day spend at or
above the budget (in particular exactly equal) yields `false`; whenever
the same-day spend is below the budget — in particular after a day
rollover with a positive budget and no entries on the new day — it
yields `true`; with tracking disabled it is `true` unconditionally. -/
theorem budget_gate_spec (ct : Bool) (budget : ℚ) (day : Int → Str)
    (now : Int) (entries : List CostEntry) :
    (ct = true → budget ≤ todaySum day now entries →
      canAffordProcessing ct budget day now entries = false) ∧
    (ct = true → todaySum day now entries < budget →
      canAffordProcessing ct budget day now entries = true) ∧
    (ct = true → (∀ e ∈ entries, ¬ day e.timestamp = day now) → 0 < budget →
      canAffordProcessing ct budget day now entries = true) ∧
    (ct = false → canAffordProcessing ct budget day now entries = true) := by
  refine ⟨?_, ?_, ?_, ?_⟩
  · intro hct h
    subst hct
    unfold canAffordProcessing
    simp [not_lt.mpr h]
  · intro hct h
    subst hct
    unfold canAffordProcessing
    simp [h]
  · intro hct hroll hpos
    subst hct
    unfold canAffordProcessing
    have hfil : entries.filter (fun e => day e.timestamp = day now) = [] := by
      rw [List.filter_eq_nil_iff]
      intro e he
      simpa using hroll e he
    simp [todaySum, hfil, hpos]
  · intro hct
    subst hct
    rfl

/-- Witness for C4: one entry of cost exactly the 1.0 budget recorded on
day `d0` blocks further processing that day; on the next day (`now` past
the boundary of this concrete day function) the gate opens again. -/
theorem budget_gate_spec_witness :
    canAffordProcessing true 1 (fun t => if t < 100 then toL "d0" else toL "d1") 0
      [⟨0, toL "enhancement", 1, toL "openai"⟩] = false ∧
    canAffordProcessing true 1 (fun t => if t < 100 then toL "d0" else toL "d1") 200
      [⟨0, toL "enhancement", 1, toL "openai"⟩] = true ∧
    canAffordProcessing false 1 (fun t => if t < 100 then toL "d0" else toL "d1") 0
      [⟨0, toL "enhancement", 1, toL "openai"⟩] = true := by
  refine ⟨?_, ?_, ?_⟩
  · exact (budget_gate_spec true 1 _ 0 _).1 rfl (by
      simp [todaySum, List.filter])
  · exact (budget_gate_spec true 1 _ 200 _).2.2.1 rfl (by
      intro e he
      simp at he
      subst he
      simp
      decide) (by norm_num)
  · exact (budget_gate_spec false 1 _ 0 _).2.2.2 rfl

/-! ### Content cleaning, token and cost estimation (src/main.ts, src/ai-service.ts) -/

/-- `String.prototype.split(/\s+/)`: pieces between maximal whitespace
runs; a leading (or trailing) run contributes a leading (or trailing)
empty piece, and the empty string yields `[""]`. -/
def splitWsAux : Nat → Str → Str → List Str
  | 0, cur, _ => [cur.reverse]
  | _ + 1, cur, [] => [cur.reverse]
  | fuel + 1, cur, c :: rest =>
    if isJsWs c then cur.reverse :: splitWsAux fuel [] (rest.dropWhile isJsWs)
    else splitWsAux fuel (c :: cur) rest

def splitWs (s : Str) : List Str := splitWsAux (s.length + 1) [] s

theorem splitWsAux_ne_nil : ∀ (fuel : Nat) (cur s : Str), splitWsAux fuel cur s ≠ [] := by
  intro fuel
  induction fuel with
  | zero => intro cur s; simp [splitWsAux]
  | succ n ih =>
    intro cur s
    cases s with
    | nil => simp [splitWsAux]
    | cons c rest =>
      unfold splitWsAux
      split
      · simp
      · exact ih (c :: cur) rest

/-- The anchored `content.replace(/^---[\s\S]*?---\n?/, '')`: a leading
`---`, a lazy body up to the next `---`, an optional line feed. -/
def stripLeadingFm (content : Str) : Str :=
  if beginsWith content (toL "---") then
    match ((subIdxList content (toL "---")).filter (fun i => 3 ≤ i)).head? with
    | some j =>
      let e := j + 3
      content.drop (if beginsWith (content.drop e) (toL "\n") then e + 1 else e)
    | none => content
  else content

/-- Global lazy-block removal shared by `replace(/!\[\[.*?\]\]/g, '')` and
`replace(/```[\s\S]*?```/g, '')`: scans left to right, removing each
non-overlapping `opn ... cls` span (the `.*?` variant additionally
requires the body to be free of line terminators), resuming after each
removed span. Fueled; `length + 1` always suffices. -/
def replaceLazy (opn cls : Str) (allowNl : Bool) : Nat → Str → Str
  | 0, s => s
  | fuel + 1, s =>
    match s with
    | [] => []
    | c :: rest =>
      if beginsWith s opn then
        let afterOpen := s.drop opn.length
        match firstSubIdx afterOpen cls with
        | some j =>
          if allowNl ∨ (afterOpen.take j).all dotOkChar then
            replaceLazy opn cls allowNl fuel (afterOpen.drop (j + cls.length))
          else c :: replaceLazy opn cls allowNl fuel rest
        | none => c :: replaceLazy opn cls allowNl fuel rest
      else c :: replaceLazy opn cls allowNl fuel rest

/-- `cleanContent`: strip a leading front-matter block, remove image
embeds and fenced code blocks, trim. -/
def cleanContent (content : Str) : Str :=
  let c1 := stripLeadingFm content
  let c2 := replaceLazy (toL "![[") (toL "]]") false (c1.length + 1) c1
  jsTrim (replaceLazy (toL "```") (toL "```") true (c2.length + 1) c2)

/-- `estimateTokens`: `Math.ceil(words / 0.75)`; the host division by the
exactly representable 0.75 followed by `ceil` equals the exact
`⌈4n/3⌉ = (4n+2)/3` on natural word counts. -/
def estimateTokens (text : Str) : Nat := ((splitWs text).length * 4 + 2) / 3

/-- `estimateCost` (src/ai-service.ts:120-144): static per-provider price
table; providers with a `default` rate use it, otherwise the `gpt4` or
`gemini` generation rate; unknown providers use the 0.01 fallback. -/
def estimateCost (provider : Str) (tokens : Nat) : ℚ :=
  let basePrice : ℚ :=
    if provider = toL "openai" then 3 / 100
    else if provider = toL "google" then 1 / 2000
    else if provider = toL "grok" then 1 / 500
    else if provider = toL "azure" then 3 / 100
    else if provider = toL "local" then 0
    else 1 / 100
  (tokens : ℚ) / 1000 * basePrice

/-- `recordCost`: appends an entry priced by `estimateCost`, then prunes
entries older than the rolling 30-day window. -/
def recordCost (provider op : Str) (now : Int) (tokens : Nat)
    (entries : List CostEntry) : List CostEntry :=
  ((entries ++ [⟨now, op, estimateCost provider tokens, provider⟩] : List CostEntry)).filter
    (fun e => now - 2592000000 ≤ e.timestamp)

/-! ### `updateNoteWithAI` and the neighbor loop of `processNote`
(src/main.ts:219-267, 308-333) -/

/-- Externally determined outcomes of one `updateNoteWithAI` call: the
`vault.read` of the neighbor, the provider call inside
`generateEnhancement`, and the `vault.modify` write inside
`applyEnhancement` (`some msg` models a thrown write error). -/
structure NeighborOutcome where
  readRes : Except Str Str
  aiCall : Except Str Str
  writeRes : Option Str

structure PipelineCfg where
  costTracking : Bool
  dailyBudget : ℚ
  provider : Str
  dayString : Int → Str
  now : Int

def budgetErrMsg : Str := toL "Would exceed daily budget"

/-- `updateNoteWithAI`: read the note, clean it, throw the budget error
when tracking is on and the gate is closed, generate the enhancement
(total — provider failures are absorbed inside `generateEnhancement`),
record the cost when tracking is on, apply the enhancement (the write may
throw). The surrounding `catch` logs and **rethrows**, so every error
propagates to the caller. The cost ledger is instance state that
`recordCost` mutates in place **before** `applyEnhancement` runs, so the
function returns the ledger as mutated up to the point of a throw next to
the escaped error: a write failure retains the just-recorded entry, while
a read or budget failure leaves the ledger untouched. -/
def updateNoteWithAI (cfg : PipelineCfg) (entries : List CostEntry)
    (o : NeighborOutcome) : List CostEntry × Option Str :=
  match o.readRes with
  | Except.error m => (entries, some m)
  | Except.ok content =>
    let clean := cleanContent content
    if cfg.costTracking ∧
        canAffordProcessing cfg.costTracking cfg.dailyBudget cfg.dayString
          cfg.now entries = false then
      (entries, some budgetErrMsg)
    else
      let _enh := generateEnhancement cfg.provider o.aiCall
      let entries2 :=
        if cfg.costTracking then
          recordCost cfg.provider (toL "enhancement") cfg.now
            (estimateTokens clean) entries
        else entries
      match o.writeRes with
      | some m => (entries2, some m)
      | none => (entries2, none)

/-- The `for (const relevantNote of relevantNotes)` loop of `processNote`:
each neighbor is awaited in turn; the loop body has no own handler, so the
first error ends the loop. Returns the number of neighbors successfully
processed, the cost ledger as left by the calls that ran (including the
one that threw), and the escaped error if any. -/
def runNeighborLoop (cfg : PipelineCfg) (entries : List CostEntry) :
    List NeighborOutcome → Nat × List CostEntry × Option Str
  | [] => (0, entries, none)
  | o :: rest =>
    match updateNoteWithAI cfg entries o with
    | (e2, some m) => (0, e2, some m)
    | (e2, none) =>
      let t := runNeighborLoop cfg e2 rest
      (t.1 + 1, t.2.1, t.2.2)

def budgetNotice : Str := toL "Daily budget reached. Processing paused until tomorrow."

/-- The `catch` of `processNote`: a budget-flavored message gets the
budget notice, anything else a generic error notice; nothing rethrows. -/
def processNoteNotice (m : Str) : Str :=
  if containsSub m (toL "budget") then budgetNotice
  else toL "Error processing note: " ++ m

/-- `processNote` around the neighbor loop: the escaped loop error is
caught and converted into a user notice; `processNote` itself always
returns normally. -/
def processNoteRun (cfg : PipelineCfg) (entries : List CostEntry)
    (outcomes : List NeighborOutcome) : Nat × List CostEntry × Option Str :=
  let t := runNeighborLoop cfg entries outcomes
  (t.1, t.2.1, t.2.2.map processNoteNotice)

def cCfg : PipelineCfg := ⟨false, 1, toL "local", fun _ => [], 0⟩

def cCfgTrack : PipelineCfg := ⟨true, 1, toL "local", fun _ => [], 0⟩

def oBad : NeighborOutcome := ⟨Except.error (toL "read failed"), Except.ok [], none⟩

def oGood : NeighborOutcome := ⟨Except.ok [], Except.ok [], none⟩

def oWriteFail : NeighborOutcome := ⟨Except.ok [], Except.ok [], some (toL "write failed")⟩

/-- C3 counterexample: with cost tracking off (so no budget signal can
occur), a non-budget failure on the first ranked neighbor (a failing
`vault.read`) stops the neighbor loop — the second, perfectly healthy
neighbor is never processed, although alone it would be. This refutes the
claim that only a budget-exceeded signal stops the remaining loop. -/
theorem neighbor_failure_aborts_siblings_counterexample :
    containsSub (toL "read failed") (toL "budget") = false ∧
    runNeighborLoop cCfg [] [oBad, oGood] = (0, [], some (toL "read failed")) ∧
    runNeighborLoop cCfg [] [oGood] = (1, [], none) :=
  ⟨rfl, rfl, rfl⟩

/-- C3 amended: during one `processNote` invocation, the **first** failure
while enhancing a ranked neighbor — budget-exceeded or any other error
(`updateNoteWithAI` rethrows everything it catches) — stops the remaining
neighbor loop, whatever the remaining neighbors are; the loop leaves the
cost ledger exactly as the failing call left it (a cost entry recorded
before a failing write is retained); the error is caught by `processNote`
and surfaced as a notice (the budget notice when the message mentions the
budget), never propagated. Provider-call failures inside
`generateEnhancement` are absorbed there and do not stop the loop. -/
theorem neighbor_loop_first_failure_stops (cfg : PipelineCfg)
    (entries : List CostEntry) (o : NeighborOutcome)
    (rest : List NeighborOutcome) (m : Str)
    (h : (updateNoteWithAI cfg entries o).2 = some m) :
    runNeighborLoop cfg entries (o :: rest) =
      (0, (updateNoteWithAI cfg entries o).1, some m) ∧
    processNoteRun cfg entries (o :: rest) =
      (0, (updateNoteWithAI cfg entries o).1, some (processNoteNotice m)) := by
  have hu : updateNoteWithAI cfg entries o =
      ((updateNoteWithAI cfg entries o).1, some m) := by
    rw [← h]
  have hloop : runNeighborLoop cfg entries (o :: rest) =
      (0, (updateNoteWithAI cfg entries o).1, some m) := by
    unfold runNeighborLoop
    rw [hu]
  refine ⟨hloop, ?_⟩
  unfold processNoteRun
  rw [hloop]
  rfl

/-- Witness for the amended C3: a concrete failing read on the first
neighbor (tracking off, ledger untouched), and a concrete failing write
with cost tracking on, where the loop stops but the cost entry recorded
just before the write is retained in the resulting ledger. -/
theorem neighbor_loop_first_failure_stops_witness :
    (updateNoteWithAI cCfg [] oBad).2 = some (toL "read failed") ∧
    runNeighborLoop cCfg [] [oBad, oGood] = (0, [], some (toL "read failed")) ∧
    processNoteRun cCfg [] [oBad, oGood] =
      (0, [], some (processNoteNotice (toL "read failed"))) ∧
    runNeighborLoop cCfgTrack [] [oWriteFail] =
      (0, [⟨0, toL "enhancement",
            estimateCost (toL "local") (estimateTokens (cleanContent [])),
            toL "local"⟩], some (toL "write failed")) ∧
    estimateCost (toL "local") (estimateTokens (cleanContent [])) = 0 :=
  ⟨rfl,
   (neighbor_loop_first_failure_stops cCfg [] oBad [oGood] (toL "read failed") rfl).1,
   (neighbor_loop_first_failure_stops cCfg [] oBad [oGood] (toL "read failed") rfl).2,
   by
    have h := (neighbor_loop_first_failure_stops cCfgTrack [] oWriteFail []
      (toL "write failed") rfl).1
    rw [h]
    rfl,
   by
    simp only [estimateCost]
    rw [if_neg (by decide), if_neg (by decide), if_neg (by decide), if_neg (by decide),
      if_pos (by decide)]
    exact mul_zero _⟩

/-! ### Hash-bucket fallback embedding (src/ai-service.ts:278-292, 430-438) -/

/-- Two's-complement wrap to a signed 32-bit value (`hash & hash` i.e.
`ToInt32`, and the implicit wrap of `<< 5`). -/
def wrap32 (n : Int) : Int := (n + 2 ^ 31) % 2 ^ 32 - 2 ^ 31

/-- One step of `simpleHash`: `hash = ((hash << 5) - hash) + charCode`,
then the `& hash` int32 wrap. `charCodeAt` agrees with the code point for
the basic-plane characters; the hash value is only ever used to choose a
bucket. -/
def hashStep (h : Int) (c : Char) : Int := wrap32 (wrap32 (h * 32) - h + c.toNat)

def simpleHash (s : Str) : Int := s.foldl hashStep 0

/-- `Math.abs(hash) % embedding.length` with the fixed length 384. -/
def bucketOf (w : Str) : Fin 384 := ⟨(simpleHash w).natAbs % 384, Nat.mod_lt _ (by norm_num)⟩

/-- One `forEach` step: `embedding[pos] += 1 / (index + 1)`. The
fixed-length numeric array is modelled as a function from its indices. -/
def accStep (v : Fin 384 → ℚ) (iw : Nat × Str) : Fin 384 → ℚ :=
  Function.update v (bucketOf iw.2) (v (bucketOf iw.2) + 1 / (iw.1 + 1))

/-- The accumulation loop over the indexed word list, starting from
`new Array(384).fill(0)`. -/
def simpleEmbedAcc (words : List Str) : Fin 384 → ℚ :=
  words.enum.foldl accStep (fun _ => 0)

/-- The unnormalized embedding as a host array (before the magnitude
check). -/
noncomputable def rawEmbed (content : Str) : List ℝ :=
  List.ofFn (fun i => ((simpleEmbedAcc (splitWs (toLowerStr content)) i : ℚ) : ℝ))

/-- `generateSimpleEmbedding`: bucket histogram of the lowercased
whitespace-split words weighted by inverse position, then L2
normalization guarded by `magnitude > 0`. -/
noncomputable def generateSimpleEmbedding (content : Str) : List ℝ :=
  if 0 < Real.sqrt (normSq (rawEmbed content)) then
    (rawEmbed content).map (fun v => v / Real.sqrt (normSq (rawEmbed content)))
  else rawEmbed content

theorem accStep_nonneg {v : Fin 384 → ℚ} (hv : ∀ j, 0 ≤ v j) (iw : Nat × Str) :
    ∀ j, 0 ≤ accStep v iw j := by
  intro j
  unfold accStep
  rcases eq_or_ne j (bucketOf iw.2) with h | h
  · subst h
    rw [Function.update_same]
    have hw : (0 : ℚ) < 1 / (iw.1 + 1) := by positivity
    linarith [hv (bucketOf iw.2)]
  · rw [Function.update_noteq h]
    exact hv j

theorem foldl_accStep_nonneg :
    ∀ (pairs : List (Nat × Str)) (v : Fin 384 → ℚ), (∀ j, 0 ≤ v j) →
      ∀ j, 0 ≤ (pairs.foldl accStep v) j
  | [], v, hv => hv
  | iw :: rest, v, hv => by
    rw [List.foldl_cons]
    exact foldl_accStep_nonneg rest (accStep v iw) (accStep_nonneg hv iw)

theorem accStep_mono (v : Fin 384 → ℚ) (iw : Nat × Str) (j : Fin 384) :
    v j ≤ accStep v iw j := by
  unfold accStep
  rcases eq_or_ne j (bucketOf iw.2) with h | h
  · subst h
    rw [Function.update_same]
    have : (0 : ℚ) < 1 / (iw.1 + 1) := by positivity
    linarith
  · rw [Function.update_noteq h]

theorem foldl_accStep_mono :
    ∀ (pairs : List (Nat × Str)) (v : Fin 384 → ℚ) (j : Fin 384),
      v j ≤ (pairs.foldl accStep v) j
  | [], _, _ => le_refl _
  | iw :: rest, v, j => by
    rw [List.foldl_cons]
    exact le_trans (accStep_mono v iw j) (foldl_accStep_mono rest (accStep v iw) j)

/-- Splitting any string on whitespace yields at least one (possibly
empty) token, whose weight `1/(index+1) = 1` lands in some bucket, so the
accumulated vector has an entry `≥ 1`. -/
theorem simpleEmbedAcc_entry_ge_one (content : Str) :
    ∃ p : Fin 384, 1 ≤ simpleEmbedAcc (splitWs (toLowerStr content)) p := by
  have hne : splitWs (toLowerStr content) ≠ [] := splitWsAux_ne_nil _ [] _
  rcases List.exists_cons_of_ne_nil hne with ⟨w0, rest, hw⟩
  refine ⟨bucketOf w0, ?_⟩
  unfold simpleEmbedAcc
  rw [hw, List.enum_cons]
  rw [List.foldl_cons]
  refine le_trans ?_ (foldl_accStep_mono _ (accStep (fun _ => 0) (0, w0)) (bucketOf w0))
  unfold accStep
  rw [Function.update_same]
  norm_num

theorem normSq_map_div (l : List ℝ) (m : ℝ) :
    normSq (l.map (fun v => v / m)) = normSq l / (m * m) := by
  unfold normSq
  induction l with
  | nil => simp
  | cons x xs ih =>
    simp only [List.map_cons, List.sum_cons, ih]
    rw [div_mul_div_comm, add_div]

theorem rawEmbed_normSq_pos (content : Str) : 0 < normSq (rawEmbed content) := by
  unfold rawEmbed normSq
  rw [List.map_ofFn, List.sum_ofFn]
  rcases simpleEmbedAcc_entry_ge_one content with ⟨p, hp⟩
  have hnn := foldl_accStep_nonneg ((splitWs (toLowerStr content)).enum) (fun _ => 0)
    (fun _ => le_refl 0)
  refine Finset.sum_pos' (fun i _ => ?_) ⟨p, Finset.mem_univ p, ?_⟩
  · exact mul_self_nonneg _
  · have h1 : (1 : ℝ) ≤ ((simpleEmbedAcc (splitWs (toLowerStr content)) p : ℚ) : ℝ) := by
      exact_mod_cast hp
    simp only [Function.comp]
    nlinarith

/-- C10: for every input string, `generateSimpleEmbedding` returns a
vector of length 384; the zero-magnitude branch is unreachable (the
accumulated vector always has strictly positive sum of squares); and the
returned vector is L2-normalized. -/
theorem simple_embedding_spec (content : Str) :
    (generateSimpleEmbedding content).length = 384 ∧
    0 < normSq (rawEmbed content) ∧
    normSq (generateSimpleEmbedding content) = 1 := by
  have hpos := rawEmbed_normSq_pos content
  have hm : 0 < Real.sqrt (normSq (rawEmbed content)) := Real.sqrt_pos.mpr hpos
  refine ⟨?_, hpos, ?_⟩
  · unfold generateSimpleEmbedding
    rw [if_pos hm, List.length_map]
    unfold rawEmbed
    rw [List.length_ofFn]
  · unfold generateSimpleEmbedding
    rw [if_pos hm, normSq_map_div]
    rw [Real.mul_self_sqrt (le_of_lt hpos)]
    exact div_self (ne_of_gt hpos)

/-! ### Front-matter model and `applyEnhancement` (src/main.ts:335-423) -/

inductive Yaml where
  | ystr : Str → Yaml
  | yarr : List Str → Yaml
  | ybool : Bool → Yaml
  | ynum : ℚ → Yaml
deriving DecidableEq

/-- `replace(/^["']|["']$/g, '')`: removes one leading and one trailing
quote character (the two anchored alternatives of the global regex). -/
def stripEdgeQuotes (s : Str) : Str :=
  let s1 :=
    match s with
    | c :: r => if c = '"' ∨ c = Char.ofNat 39 then r else s
    | [] => []
  match s1.getLast? with
  | some c => if c = '"' ∨ c = Char.ofNat 39 then s1.dropLast else s1
  | none => s1

def intOfDigits (ds : Str) : ℚ :=
  ds.foldl (fun a c => a * 10 + ((c.toNat - 48 : Nat) : ℚ)) 0

/-- Model of the host `Number()` conversion on the forms occurring in
front-matter values: empty string to 0, optionally signed plain decimals;
anything else (exponents, hex, `Infinity`, garbage) is `NaN` (`none`),
which is outside the numeric claims verified here. -/
def jsNumberModel (s : Str) : Option ℚ :=
  let t := jsTrim s
  if t = [] then some 0
  else
    let (sgn, t1) : ℚ × Str :=
      match t with
      | '-' :: r => (-1, r)
      | '+' :: r => (1, r)
      | _ => (1, t)
    let ip := t1.takeWhile Char.isDigit
    let t2 := t1.dropWhile Char.isDigit
    match t2 with
    | [] => if ip = [] then none else some (sgn * intOfDigits ip)
    | '.' :: fr =>
      let fp := fr.takeWhile Char.isDigit
      if ¬ fr.dropWhile Char.isDigit = [] then none
      else if ip = [] ∧ fp = [] then none
      else some (sgn * (intOfDigits ip + intOfDigits fp / 10 ^ fp.length))
    | _ => none

/-- `parseYamlValue`: bracketed values become arrays of trimmed,
edge-unquoted strings; quoted values are unquoted; `true`/`false` become
booleans; numeric strings become numbers; anything else stays a string. -/
def parseYamlValue (value : Str) : Yaml :=
  if beginsWith value (toL "[") ∧ finishesWith value (toL "]") then
    Yaml.yarr (((splitChar ',' (value.drop 1).dropLast)).map
      (fun item => stripEdgeQuotes (jsTrim item)))
  else if (beginsWith value (toL "\"") ∧ finishesWith value (toL "\"")) ∨
      (beginsWith value [Char.ofNat 39] ∧ finishesWith value [Char.ofNat 39]) then
    Yaml.ystr ((value.drop 1).dropLast)
  else if value = toL "true" then Yaml.ybool true
  else if value = toL "false" then Yaml.ybool false
  else
    match jsNumberModel value with
    | some q => Yaml.ynum q
    | none => Yaml.ystr value

/-- Host-object property assignment `frontmatter[key] = v`: overwrites in
place when the key exists, otherwise appends in insertion order. -/
def yamlAssign (fm : List (Str × Yaml)) (k : Str) (v : Yaml) : List (Str × Yaml) :=
  if fm.any (fun e => e.1 = k) then fm.map (fun e => if e.1 = k then (k, v) else e)
  else fm ++ [(k, v)]

/-- The simple per-line YAML parse of `applyEnhancement`: split the
captured block on line feeds; every line whose first colon is at a
positive index contributes `trim(key) ↦ parseYamlValue(trim(value))`. -/
def parseFmLines (body : Str) : List (Str × Yaml) :=
  (splitChar '\n' body).foldl
    (fun fm line =>
      match line.findIdx? (· = ':') with
      | some ci =>
        if 0 < ci then
          yamlAssign fm (jsTrim (line.take ci)) (parseYamlValue (jsTrim (line.drop (ci + 1))))
        else fm
      | none => fm)
    []

/-- The anchored front-matter match
`/^---\n([\s\S]*?)\n---\n?/`: a leading `---` line, the lazy capture up to
the first subsequent `\n---`, an optional trailing line feed; returns the
captured block and the remaining content. -/
def fmMatch (content : Str) : Option (Str × Str) :=
  if beginsWith content (toL "---\n") then
    match ((subIdxList content (toL "\n---")).filter (fun i => 4 ≤ i)).head? with
    | some j =>
      some (substrFromTo content 4 j,
        content.drop (if beginsWith (content.drop (j + 4)) (toL "\n") then j + 5 else j + 4))
    | none => none
  else none

def fmParsed (content : Str) : List (Str × Yaml) :=
  match fmMatch content with
  | some (body, _) => parseFmLines body
  | none => []

def bodyAfterFm (content : Str) : Str :=
  match fmMatch content with
  | some (_, rest) => rest
  | none => content

structure EnhSettings where
  enableTags : Bool
  enableKeywords : Bool
  enableLinks : Bool
  enableSummary : Bool
  enableCreationTimestamp : Bool
  enableModificationTimestamp : Bool

/-- The field updates of `applyEnhancement` on the front-matter object:
each enhancement field is written only when its toggle is on **and** the
field is non-empty; the metadata fields `created_at` / `modified_at`
(toggle-gated; `toISOString().toLocaleString()` on a string is the ISO
string itself) and `sane_updated` / `sane_version` are written
unconditionally. -/
def applyEnhancementFm (st : EnhSettings) (nowIso ctimeIso mtimeIso : Str)
    (fm : List (Str × Yaml)) (e : Enhancement) : List (Str × Yaml) :=
  let f1 := if st.enableTags ∧ ¬ e.tags = [] then
    yamlAssign fm (toL "sane_tags") (Yaml.yarr e.tags) else fm
  let f2 := if st.enableKeywords ∧ ¬ e.keywords = [] then
    yamlAssign f1 (toL "sane_keywords") (Yaml.yarr e.keywords) else f1
  let f3 := if st.enableLinks ∧ ¬ e.links = [] then
    yamlAssign f2 (toL "sane_links") (Yaml.yarr e.links) else f2
  let f4 := if st.enableSummary ∧ ¬ e.summary = [] then
    yamlAssign f3 (toL "sane_summary") (Yaml.ystr e.summary) else f3
  let f5 := if st.enableCreationTimestamp then
    yamlAssign f4 (toL "created_at") (Yaml.ystr ctimeIso) else f4
  let f6 := if st.enableModificationTimestamp then
    yamlAssign f5 (toL "modified_at") (Yaml.ystr mtimeIso) else f5
  yamlAssign (yamlAssign f6 (toL "sane_updated") (Yaml.ystr nowIso))
    (toL "sane_version") (Yaml.ystr (toL "1.0"))

/-- Decimal printing of the numbers arising in front-matter values
(integers and terminating decimals; host shortest-round-trip printing of
other doubles is outside the modelled scope). -/
def fracDigits : Nat → Nat → Nat → Str
  | 0, _, _ => []
  | _ + 1, 0, _ => []
  | fuel + 1, rem, den =>
    Char.ofNat (48 + rem * 10 / den) :: fracDigits fuel (rem * 10 % den) den

def qToStr (q : ℚ) : Str :=
  let sgn : Str := if q < 0 then ['-'] else []
  let num := |q|.num.toNat
  let den := |q|.den
  let fr := fracDigits 32 (num % den) den
  sgn ++ Nat.toDigits 10 (num / den) ++ (if fr = [] then [] else '.' :: fr)

/-- One generated front-matter line; empty arrays are skipped. -/
def yamlLine (k : Str) (v : Yaml) : Option Str :=
  match v with
  | Yaml.yarr xs =>
    if ¬ xs = [] then
      some (k ++ toL ": [" ++
        List.intercalate (toL ", ") (xs.map (fun x => '"' :: x ++ ['"'])) ++ toL "]")
    else none
  | Yaml.ystr s => some (k ++ toL ": \"" ++ s ++ toL "\"")
  | Yaml.ybool b => some (k ++ toL ": " ++ (if b then toL "true" else toL "false"))
  | Yaml.ynum q => some (k ++ toL ": " ++ qToStr q)

/-- `generateFrontmatter`: `---`, one line per surviving field, `---`,
joined by line feeds. -/
def generateFrontmatter (fm : List (Str × Yaml)) : Str :=
  List.intercalate (toL "\n")
    ((toL "---" :: fm.filterMap (fun e => yamlLine e.1 e.2)) ++ [toL "---"])

/-- `applyEnhancement`: parse (or default) the existing front-matter,
apply the updates, re-serialize, and write back the new front-matter, a
blank separator line, and the content without its original front-matter
block. -/
def applyEnhancement (st : EnhSettings) (nowIso ctimeIso mtimeIso : Str)
    (originalContent : Str) (e : Enhancement) : Str :=
  generateFrontmatter
      (applyEnhancementFm st nowIso ctimeIso mtimeIso (fmParsed originalContent) e) ++
    toL "\n\n" ++ bodyAfterFm originalContent

def metaKeys : List Str :=
  [toL "created_at", toL "modified_at", toL "sane_updated", toL "sane_version"]

theorem find_assign_map_ne :
    ∀ (fm : List (Str × Yaml)) (k k' : Str) (v : Yaml), ¬ k' = k →
      (fm.map (fun e => if e.1 = k then (k, v) else e)).find? (fun e => e.1 = k') =
        fm.find? (fun e => e.1 = k')
  | [], _, _, _, _ => rfl
  | e :: fm, k, k', v, h => by
    simp only [List.map_cons]
    by_cases hek : e.1 = k
    · rw [if_pos hek]
      rw [List.find?_cons_of_neg _ (by simp; exact fun hh => h hh.symm),
        List.find?_cons_of_neg _ (by simp [hek]; exact fun hh => h hh.symm)]
      exact find_assign_map_ne fm k k' v h
    · rw [if_neg hek]
      by_cases hek' : e.1 = k'
      · rw [List.find?_cons_of_pos _ (by simp [hek']),
          List.find?_cons_of_pos _ (by simp [hek'])]
      · rw [List.find?_cons_of_neg _ (by simpa using hek'),
          List.find?_cons_of_neg _ (by simpa using hek')]
        exact find_assign_map_ne fm k k' v h

theorem yamlAssign_find_ne (fm : List (Str × Yaml)) (k k' : Str) (v : Yaml)
    (h : ¬ k' = k) :
    (yamlAssign fm k v).find? (fun e => e.1 = k') = fm.find? (fun e => e.1 = k') := by
  unfold yamlAssign
  split
  · exact find_assign_map_ne fm k k' v h
  · rw [List.find?_append]
    have hone : ([(k, v)] : List (Str × Yaml)).find? (fun e => e.1 = k') = none := by
      rw [List.find?_cons_of_neg _ (by simp; exact fun hh => h hh.symm)]
      rfl
    rw [hone]
    cases fm.find? (fun e => e.1 = k') <;> rfl

theorem apply_empty_frame_fm (st : EnhSettings) (nowIso ctimeIso mtimeIso : Str)
    (fm : List (Str × Yaml)) (k : Str) (hk : ¬ k ∈ metaKeys) :
    (applyEnhancementFm st nowIso ctimeIso mtimeIso fm emptyEnh).find? (fun e => e.1 = k) =
      fm.find? (fun e => e.1 = k) := by
  have hk1 : ¬ k = toL "created_at" := fun h => hk (by simp [metaKeys, h])
  have hk2 : ¬ k = toL "modified_at" := fun h => hk (by simp [metaKeys, h])
  have hk3 : ¬ k = toL "sane_updated" := fun h => hk (by simp [metaKeys, h])
  have hk4 : ¬ k = toL "sane_version" := fun h => hk (by simp [metaKeys, h])
  unfold applyEnhancementFm
  simp only [emptyEnh, not_true_eq_false, and_false, if_false]
  rw [yamlAssign_find_ne _ _ _ _ hk4, yamlAssign_find_ne _ _ _ _ hk3]
  split
  · rw [yamlAssign_find_ne _ _ _ _ hk2]
    split
    · rw [yamlAssign_find_ne _ _ _ _ hk1]
    · rfl
  · split
    · rw [yamlAssign_find_ne _ _ _ _ hk1]
    · rfl

def dSettings : EnhSettings := ⟨true, true, true, true, true, true⟩

/-- C6 counterexample: applying the all-empty `Enhancement` to the
plain document `hello` (default settings, concrete timestamp strings)
does **not** leave the document unchanged — `applyEnhancement` still
writes a front-matter block with `created_at`, `modified_at`,
`sane_updated` and `sane_version` and a blank separator line. -/
theorem apply_empty_enhancement_counterexample :
    applyEnhancement dSettings (toL "NOW") (toL "CT") (toL "MT") (toL "hello") emptyEnh ≠
      toL "hello" ∧
    applyEnhancement dSettings (toL "NOW") (toL "CT") (toL "MT") (toL "hello") emptyEnh =
      toL "---\ncreated_at: \"CT\"\nmodified_at: \"MT\"\nsane_updated: \"NOW\"\nsane_version: \"1.0\"\n---\n\nhello" :=
  ⟨by decide, rfl⟩

/-- C6 amended: applying an all-empty `Enhancement` adds none of the four
`sane_` enhancement fields and leaves every non-metadata front-matter key
bound exactly as before, and the document body after the front-matter
block is carried over verbatim behind the blank separator; however
`applyEnhancement` still writes `sane_updated` and `sane_version` (plus
the timestamp fields when enabled) and re-serializes the front-matter, so
the document is **not** left unchanged. -/
theorem apply_empty_enhancement_no_field_added (st : EnhSettings)
    (nowIso ctimeIso mtimeIso : Str) (fm : List (Str × Yaml)) (content : Str)
    (k : Str) (hk : ¬ k ∈ metaKeys) :
    (applyEnhancementFm st nowIso ctimeIso mtimeIso fm emptyEnh).find? (fun e => e.1 = k) =
      fm.find? (fun e => e.1 = k) ∧
    applyEnhancement st nowIso ctimeIso mtimeIso content emptyEnh =
      generateFrontmatter
          (applyEnhancementFm st nowIso ctimeIso mtimeIso (fmParsed content) emptyEnh) ++
        (toL "\n\n" ++ bodyAfterFm content) :=
  ⟨apply_empty_frame_fm st nowIso ctimeIso mtimeIso fm k hk, by
    unfold applyEnhancement
    rw [List.append_assoc]⟩

/-- Witness for the amended C6: a pre-existing `sane_tags` binding is
untouched by an all-empty enhancement. -/
theorem apply_empty_enhancement_no_field_added_witness :
    ¬ toL "sane_tags" ∈ metaKeys ∧
    (applyEnhancementFm dSettings (toL "N") (toL "C") (toL "M")
        [(toL "sane_tags", Yaml.yarr [toL "old"])] emptyEnh).find?
        (fun e => e.1 = toL "sane_tags") =
      ([(toL "sane_tags", Yaml.yarr [toL "old"])] : List (Str × Yaml)).find?
        (fun e => e.1 = toL "sane_tags") :=
  ⟨by decide,
   (apply_empty_enhancement_no_field_added dSettings (toL "N") (toL "C") (toL "M")
      [(toL "sane_tags", Yaml.yarr [toL "old"])] (toL "x") (toL "sane_tags")
      (by decide)).1⟩
